import Mathlib

/-!
Verification of the Int64 value type (node-int64 TypeScript fork).

The source program stores a signed 64-bit integer as 8 big-endian bytes in a
node Buffer at a byte offset.  We embed the program shallowly:

* a JS Buffer is a `List Nat` of bytes together with an offset;
* JS numbers are modelled exactly: every number produced by the code paths
  treated here is either an integer of magnitude below 2^53 (where IEEE-754
  double arithmetic is exact, so `Int`/`Nat` arithmetic is faithful), an exact
  rational (the un-floored quotient `n / 2^32` in `setValue`, modelled in `ℚ`,
  which is exact because dividing a double by 2^32 only shifts the exponent),
  or `±Infinity` (modelled by the `JsNum` inductive);
* the 32-bit coercions performed by the JS bitwise operators (`ToInt32`,
  `ToUint32`) are modelled explicitly by `toUint32` / `toInt32`;
* JS strings are modelled as `List Char`;
* a thrown `RangeError` is modelled as `none` of an `Option` result;
* reading a Buffer out of bounds yields `undefined` in JS, which poisons all
  subsequent arithmetic (NaN); in `toDecimalString`, the one place where the
  claims concern bounds, reads are therefore modelled with `List.get?` so that
  an out-of-bounds access is visible as a `none` result.
-/

/-! ## JS 32-bit coercions and bitwise operators -/

/-- JS ToUint32: the operand reduced into `[0, 2^32)`. -/
def toUint32 (x : Int) : Nat := (x % 4294967296).toNat

/-- JS ToInt32: the operand reduced into `[-2^31, 2^31)`. -/
def toInt32 (x : Int) : Int :=
  let u := toUint32 x
  if u < 2147483648 then (u : Int) else (u : Int) - 4294967296

/-- JS bitwise and on numbers (operands coerced to 32 bits, result Int32). -/
def jsAnd (a b : Int) : Int := toInt32 ((toUint32 a &&& toUint32 b : Nat) : Int)

/-- JS bitwise or on numbers (operands coerced to 32 bits, result Int32). -/
def jsOr (a b : Int) : Int := toInt32 ((toUint32 a ||| toUint32 b : Nat) : Int)

/-- JS bitwise not `~a` (operand coerced to Int32). -/
def jsNot (a : Int) : Int := -(toInt32 a) - 1

/-- JS unsigned right shift `a >>> n` (operand coerced to 32 bits). -/
def jsShru (a : Int) (n : Nat) : Int := ((toUint32 a >>> n : Nat) : Int)

theorem toUint32_ofNat (n : Nat) : toUint32 (n : Int) = n % 4294967296 := by
  unfold toUint32
  omega

theorem toUint32_ofNat_lt {n : Nat} (h : n < 4294967296) : toUint32 (n : Int) = n := by
  rw [toUint32_ofNat]; exact Nat.mod_eq_of_lt h

theorem toUint32_lt (x : Int) : toUint32 x < 4294967296 := by
  unfold toUint32
  omega

theorem toUint32_toInt32 (x : Int) : toUint32 (toInt32 x) = toUint32 x := by
  simp only [toInt32, toUint32]
  split <;> omega

/-- Bitwise and with 255 is reduction mod 256. -/
theorem and255 (n : Nat) : n &&& 255 = n % 256 := by
  have h := Nat.and_pow_two_sub_one_eq_mod n 8
  norm_num at h
  exact h

theorem shru8 (n : Nat) : n >>> 8 = n / 256 := by
  have h := Nat.shiftRight_eq_div_pow n 8
  norm_num at h
  exact h

/-- Xor with 255 complements a byte. -/
theorem xor255 {v : Nat} (h : v < 256) : v ^^^ 255 = 255 - v := by
  revert h
  have key : ∀ x : Fin 256, x.val ^^^ 255 = 255 - x.val := by
    set_option maxRecDepth 4096 in decide
  intro h
  exact key ⟨v, h⟩

/-- Bitwise and of a byte with 128 tests the high bit. -/
theorem and128 {v : Nat} (h : v < 256) : v &&& 128 = if v < 128 then 0 else 128 := by
  revert h
  have key : ∀ x : Fin 256, x.val &&& 128 = if x.val < 128 then 0 else 128 := by
    set_option maxRecDepth 4096 in decide
  intro h
  exact key ⟨v, h⟩

/-! ## The Int64 data model -/

/-- An Int64 object: a byte buffer plus the offset of its 8 logical bytes
(source fields `buffer`, `offset`). -/
structure Int64 where
  buffer : List Nat
  offset : Nat
deriving DecidableEq, Repr

namespace Int64

/-- Read the logical byte `buffer[offset + i]`.  In-bounds reads (the only ones
the claims below exercise for this accessor) agree with the JS Buffer read. -/
def rd (t : Int64) (i : Nat) : Nat := t.buffer.getD (t.offset + i) 0

/-- A well-formed Int64: 8 logical bytes available (the data-model invariant
`buffer.length - offset >= 8`) and every stored value is a byte. -/
def Wf (t : Int64) : Prop :=
  t.offset + 8 ≤ t.buffer.length ∧ ∀ x ∈ t.buffer, x < 256

/-- Unsigned value of the 8 big-endian logical bytes. -/
def unsignedVal (t : Int64) : Nat :=
  t.rd 0 * 72057594037927936 + t.rd 1 * 281474976710656 + t.rd 2 * 1099511627776 +
    t.rd 3 * 4294967296 + t.rd 4 * 16777216 + t.rd 5 * 65536 + t.rd 6 * 256 + t.rd 7

/-- Signed (two's-complement) value of the 8 logical bytes. -/
def signedVal (t : Int64) : Int :=
  if unsignedVal t < 9223372036854775808 then (unsignedVal t : Int)
  else (unsignedVal t : Int) - 18446744073709551616

/-- Byte stored by `b[o+i] = lo & 0xff` (a JS Int32 in `[0, 255]`, stored as a
Nat). -/
def andFF (x : Int) : Nat := (jsAnd x 255).toNat

/-- Byte-writing loop shared by every form of `setValue`
(`for (i = 7; i >= 0; i--) { b[o+i] = lo & 0xff; lo = i === 4 ? hi : lo >>> 8 }`),
unrolled.  The final dead update of `lo` at `i = 0` is dropped. -/
def writeBytes (b : List Nat) (o : Nat) (hi lo : Int) : List Nat :=
  let b7 := b.set (o + 7) (andFF lo)
  let lo1 := jsShru lo 8
  let b6 := b7.set (o + 6) (andFF lo1)
  let lo2 := jsShru lo1 8
  let b5 := b6.set (o + 5) (andFF lo2)
  let lo3 := jsShru lo2 8
  let b4 := b5.set (o + 4) (andFF lo3)
  let lo4 := hi
  let b3 := b4.set (o + 3) (andFF lo4)
  let lo5 := jsShru lo4 8
  let b2 := b3.set (o + 2) (andFF lo5)
  let lo6 := jsShru lo5 8
  let b1 := b2.set (o + 1) (andFF lo6)
  let lo7 := jsShru lo6 8
  b1.set o (andFF lo7)

/-- In-place two's complement `_2scomp`
(`carry = 1; for (i = o+7; i >= o; i--) { v = (b[i] ^ 0xff) + carry; b[i] = v & 0xff; carry = v >> 8 }`)
expressed as a carry chain over the bytes taken least-significant first.
The shift `v >> 8` acts on a nonnegative value, so it equals `v >>> 8`. -/
def compChain : List Nat → Nat → List Nat
  | [], _ => []
  | d :: rest, carry =>
    let v := (d ^^^ 255) + carry
    (v &&& 255) :: compChain rest (v >>> 8)

/-- The source applies `_2scomp` only to the freshly allocated 8-byte buffer at
offset 0 (`setValue` on a negative number); this is that specialisation. -/
def twosComp8 (b : List Nat) : List Nat := (compChain b.reverse 1).reverse

/-- Value of a least-significant-first byte list. -/
def valLSB : List Nat → Nat
  | [] => 0
  | d :: rest => d + 256 * valLSB rest

/-- Construct(hi, lo): the two-argument `setValue` path on a fresh 8-byte
buffer.  No range check; `negate` stays false. -/
def ofHiLo (hi lo : Int) : Int64 :=
  ⟨writeBytes (List.replicate 8 0) 0 hi lo, 0⟩

/-- Construct(number): the single-number `setValue` path on a fresh 8-byte
buffer.  `n` is taken to be an integer-valued double, so `Math.abs`, `% 2^32`
and the comparison of the exact quotient `n / 2^32` (doubles divide exactly by
2^32) against 2^32 are all exact; `hi | 0` truncates that quotient toward zero
and reduces it to Int32.  A thrown RangeError is `none`. -/
def ofNumber (n : Int) : Option Int64 :=
  let negate : Bool := n < 0
  let a : Nat := n.natAbs
  let lo : Nat := a % 4294967296
  if (4294967296 : ℚ) < (a : ℚ) / 4294967296 then none
  else
    let hi : Int := toInt32 ((a / 4294967296 : Nat) : Int)
    let buf := writeBytes (List.replicate 8 0) 0 hi (lo : Int)
    some ⟨if negate then twosComp8 buf else buf, 0⟩

/-! ## Arithmetic readings of the byte-writing loop -/

theorem toInt32_ofNat_lt {n : Nat} (h : n < 2147483648) : toInt32 (n : Int) = n := by
  simp only [toInt32, toUint32]
  split <;> omega

theorem andFF_eq (x : Int) : andFF x = toUint32 x % 256 := by
  have h255 : toUint32 255 = 255 := rfl
  unfold andFF jsAnd
  rw [h255, and255]
  have hlt : toUint32 x % 256 < 2147483648 :=
    lt_of_lt_of_le (Nat.mod_lt _ (by norm_num)) (by norm_num)
  rw [toInt32_ofNat_lt hlt]
  omega

theorem toUint32_jsShru8 (x : Int) : toUint32 (jsShru x 8) = toUint32 x / 256 := by
  unfold jsShru
  rw [shru8, toUint32_ofNat_lt]
  have := toUint32_lt x
  omega

theorem writeBytes_replicate (hi lo : Int) :
    writeBytes (List.replicate 8 0) 0 hi lo =
      [toUint32 hi / 16777216 % 256, toUint32 hi / 65536 % 256, toUint32 hi / 256 % 256,
       toUint32 hi % 256,
       toUint32 lo / 16777216 % 256, toUint32 lo / 65536 % 256, toUint32 lo / 256 % 256,
       toUint32 lo % 256] := by
  have e : writeBytes (List.replicate 8 0) 0 hi lo =
      [andFF (jsShru (jsShru (jsShru hi 8) 8) 8), andFF (jsShru (jsShru hi 8) 8),
       andFF (jsShru hi 8), andFF hi,
       andFF (jsShru (jsShru (jsShru lo 8) 8) 8), andFF (jsShru (jsShru lo 8) 8),
       andFF (jsShru lo 8), andFF lo] := rfl
  rw [e]
  simp only [andFF_eq, toUint32_jsShru8, Nat.div_div_eq_div_mul]

theorem unsignedVal_ofHiLo (hi lo : Int) :
    unsignedVal (ofHiLo hi lo) = toUint32 hi * 4294967296 + toUint32 lo := by
  have hH := toUint32_lt hi
  have hL := toUint32_lt lo
  simp only [ofHiLo, unsignedVal, rd, writeBytes_replicate]
  simp only [List.getD, List.getElem?_eq_getElem, List.get?_eq_getElem?]
  norm_num
  omega

/-! ## Octet strings -/

/-- Hex digit character, lowercase (used to state expected hex renderings). -/
def hexDigitChar (n : Nat) : Char :=
  if n < 10 then Char.ofNat (48 + n) else Char.ofNat (87 + n)

/-- Entry of the source's `_HEX` table: `(i > 0xF ? '' : '0') + i.toString(16)`.
`Nat.toDigits 16` renders exactly like JS `toString(16)` on byte values
(lowercase, no leading zeros, one digit for 0). -/
def hexByteChars (n : Nat) : List Char :=
  (if n > 15 then [] else ['0']) ++ Nat.toDigits 16 n

/-- Source `toOctetString` with the default separator `''`: the eight `_HEX`
entries of the logical bytes, joined. -/
def toOctetString (t : Int64) : List Char :=
  hexByteChars (t.rd 0) ++ hexByteChars (t.rd 1) ++ hexByteChars (t.rd 2) ++
    hexByteChars (t.rd 3) ++ hexByteChars (t.rd 4) ++ hexByteChars (t.rd 5) ++
    hexByteChars (t.rd 6) ++ hexByteChars (t.rd 7)

theorem hexByteChars_eq {b : Nat} (h : b < 256) :
    hexByteChars b = [hexDigitChar (b / 16), hexDigitChar (b % 16)] := by
  revert h
  have key : ∀ x : Fin 256,
      hexByteChars x.val = [hexDigitChar (x.val / 16), hexDigitChar (x.val % 16)] := by
    set_option maxRecDepth 8192 in decide
  intro h
  exact key ⟨b, h⟩

/-- Expected 8-hex-digit big-endian rendering of a 32-bit word (stated from the
spec, nibble by nibble). -/
def hexPad8 (w : Nat) : List Char :=
  [hexDigitChar (w / 268435456 % 16), hexDigitChar (w / 16777216 % 16),
   hexDigitChar (w / 1048576 % 16), hexDigitChar (w / 65536 % 16),
   hexDigitChar (w / 4096 % 16), hexDigitChar (w / 256 % 16),
   hexDigitChar (w / 16 % 16), hexDigitChar (w % 16)]

/-- C4: Construct(hi, lo) writes bytes 0-3 as hi mod 2^32 big-endian and bytes
4-7 as lo mod 2^32 big-endian, honoring only the low 32 bits of each operand
with no range check, and its toOctetString is the 16-hex-digit big-endian
concatenation of hi mod 2^32 and lo mod 2^32. -/
theorem claim_C4_construct_hiLo (hi lo : Int) :
    (ofHiLo hi lo).offset = 0 ∧
    (ofHiLo hi lo).buffer =
      [(hi % 4294967296).toNat / 16777216 % 256, (hi % 4294967296).toNat / 65536 % 256,
       (hi % 4294967296).toNat / 256 % 256, (hi % 4294967296).toNat % 256,
       (lo % 4294967296).toNat / 16777216 % 256, (lo % 4294967296).toNat / 65536 % 256,
       (lo % 4294967296).toNat / 256 % 256, (lo % 4294967296).toNat % 256] ∧
    toOctetString (ofHiLo hi lo) =
      hexPad8 (hi % 4294967296).toNat ++ hexPad8 (lo % 4294967296).toNat := by
  have hH := toUint32_lt hi
  have hL := toUint32_lt lo
  refine ⟨rfl, ?_, ?_⟩
  · show writeBytes (List.replicate 8 0) 0 hi lo = _
    rw [writeBytes_replicate]
    rfl
  · simp only [toOctetString, ofHiLo, rd, writeBytes_replicate]
    simp only [List.getD, List.getElem?_eq_getElem, List.get?_eq_getElem?]
    norm_num
    rw [hexByteChars_eq (by omega), hexByteChars_eq (by omega), hexByteChars_eq (by omega),
      hexByteChars_eq (by omega), hexByteChars_eq (by omega), hexByteChars_eq (by omega),
      hexByteChars_eq (by omega), hexByteChars_eq (by omega)]
    show _ = hexPad8 (toUint32 hi) ++ hexPad8 (toUint32 lo)
    simp only [hexPad8, List.cons_append, List.nil_append, List.cons.injEq, and_true]
    repeat' apply And.intro
    all_goals congr 1
    all_goals omega

/-! ## toNumber -/

/-- Result of a JS numeric conversion: a finite (exactly-represented) value or
an infinity. -/
inductive JsNum where
  | finite (v : Int)
  | posInf
  | negInf
deriving DecidableEq, Repr

/-- Max integer value JS can represent exactly (source `MAX_INT = 2^53`). -/
def MAX_INT : Nat := 9007199254740992

/-- Accumulation loop of `toNumber`
(`for (i = 7, m = 1; i >= 0; i--, m *= 256) { v = b[o+i]; if (negate) { v = (v ^ 0xff) + carry; carry = v >> 8; v = v & 0xff } x += v * m }`)
over the bytes taken least-significant first.  All intermediate doubles stay
below 2^53 whenever the final magnitude does, and the final `x >= 2^53`
comparison agrees with exact arithmetic, so Nat arithmetic is faithful. -/
def tnLoop (negate : Bool) : List Nat → Nat → Nat
  | [], _ => 0
  | bi :: rest, carry =>
    if negate then
      let v := (bi ^^^ 255) + carry
      (v &&& 255) + 256 * tnLoop negate rest (v >>> 8)
    else
      bi + 256 * tnLoop negate rest carry

/-- Source `toNumber(allowImprecise)`. -/
def toNumber (t : Int64) (allowImprecise : Bool) : JsNum :=
  let negate : Bool := decide (t.rd 0 &&& 128 ≠ 0)
  let x := tnLoop negate [t.rd 7, t.rd 6, t.rd 5, t.rd 4, t.rd 3, t.rd 2, t.rd 1, t.rd 0] 1
  if allowImprecise = false ∧ MAX_INT ≤ x then
    if negate then JsNum.negInf else JsNum.posInf
  else
    if negate then JsNum.finite (-(x : Int)) else JsNum.finite (x : Int)

/-- Source `valueOf()`: alias of `toNumber(false)`. -/
def valueOf (t : Int64) : JsNum := toNumber t false

theorem valLSB_lt {l : List Nat} (h : ∀ d ∈ l, d < 256) : valLSB l < 256 ^ l.length := by
  induction l with
  | nil => simp [valLSB]
  | cons d r ih =>
    rw [List.forall_mem_cons] at h
    have hr := ih h.2
    have hd := h.1
    simp only [valLSB, List.length_cons, pow_succ]
    omega

theorem tnLoop_false (l : List Nat) (c : Nat) : tnLoop false l c = valLSB l := by
  induction l generalizing c with
  | nil => rfl
  | cons d r ih => simp [tnLoop, valLSB, ih]

theorem tnLoop_true_cons (d : Nat) (r : List Nat) (c : Nat) :
    tnLoop true (d :: r) c =
      (((d ^^^ 255) + c) &&& 255) + 256 * tnLoop true r (((d ^^^ 255) + c) >>> 8) := rfl

theorem tnLoop_true_zero {l : List Nat} (h : ∀ d ∈ l, d < 256) :
    tnLoop true l 0 = 256 ^ l.length - 1 - valLSB l := by
  induction l with
  | nil => rfl
  | cons d r ih =>
    rw [List.forall_mem_cons] at h
    obtain ⟨hd, htl⟩ := h
    have hS := valLSB_lt htl
    rw [tnLoop_true_cons, xor255 hd, and255, shru8]
    have hlt : 255 - d + 0 < 256 := by omega
    rw [Nat.mod_eq_of_lt hlt, Nat.div_eq_of_lt hlt, ih htl]
    simp only [valLSB, List.length_cons, pow_succ]
    omega

theorem tnLoop_true_one {l : List Nat} (h : ∀ d ∈ l, d < 256) :
    tnLoop true l 1 = (256 ^ l.length - valLSB l) % 256 ^ l.length := by
  induction l with
  | nil => rfl
  | cons d r ih =>
    rw [List.forall_mem_cons] at h
    obtain ⟨hd, htl⟩ := h
    have hS := valLSB_lt htl
    have hP : 0 < (256 : Nat) ^ r.length := pow_pos (by norm_num) _
    rw [tnLoop_true_cons, xor255 hd, and255, shru8]
    simp only [valLSB, List.length_cons, pow_succ]
    by_cases hd0 : d = 0
    · subst hd0
      have e1 : (255 - 0 + 1) % 256 = 0 := by norm_num
      have e2 : (255 - 0 + 1) / 256 = 1 := by norm_num
      rw [e1, e2, ih htl]
      by_cases hS0 : valLSB r = 0
      · rw [hS0]
        simp [Nat.mod_self]
      · rw [Nat.mod_eq_of_lt
            (show 256 ^ r.length - valLSB r < 256 ^ r.length by omega),
          Nat.mod_eq_of_lt
            (show 256 ^ r.length * 256 - (0 + 256 * valLSB r) < 256 ^ r.length * 256 by
              omega)]
        omega
    · have hlt : 255 - d + 1 < 256 := by omega
      rw [Nat.mod_eq_of_lt hlt, Nat.div_eq_of_lt hlt, tnLoop_true_zero htl]
      rw [Nat.mod_eq_of_lt
          (show 256 ^ r.length * 256 - (d + 256 * valLSB r) < 256 ^ r.length * 256 by
            omega)]
      omega

theorem rd_lt {t : Int64} (h : Wf t) (i : Nat) : t.rd i < 256 := by
  unfold rd List.getD
  cases hx : t.buffer.get? (t.offset + i) with
  | none => simp
  | some v =>
    have hv : v ∈ t.buffer := List.get?_mem hx
    simpa using h.2 v hv

theorem unsignedVal_lt {t : Int64} (h : Wf t) :
    unsignedVal t < 18446744073709551616 := by
  have h0 := rd_lt h 0
  have h1 := rd_lt h 1
  have h2 := rd_lt h 2
  have h3 := rd_lt h 3
  have h4 := rd_lt h 4
  have h5 := rd_lt h 5
  have h6 := rd_lt h 6
  have h7 := rd_lt h 7
  unfold unsignedVal
  omega

theorem signBit_iff {t : Int64} (h : Wf t) :
    128 ≤ t.rd 0 ↔ 9223372036854775808 ≤ unsignedVal t := by
  have h1 := rd_lt h 1
  have h2 := rd_lt h 2
  have h3 := rd_lt h 3
  have h4 := rd_lt h 4
  have h5 := rd_lt h 5
  have h6 := rd_lt h 6
  have h7 := rd_lt h 7
  unfold unsignedVal
  omega

theorem valLSB_bytes (t : Int64) :
    valLSB [t.rd 7, t.rd 6, t.rd 5, t.rd 4, t.rd 3, t.rd 2, t.rd 1, t.rd 0] =
      unsignedVal t := by
  simp only [valLSB, unsignedVal]
  ring

theorem toNumber_eq (t : Int64) (h : Wf t) (allow : Bool) :
    toNumber t allow =
      if allow = false ∧ MAX_INT ≤ (signedVal t).natAbs then
        (if signedVal t < 0 then JsNum.negInf else JsNum.posInf)
      else JsNum.finite (signedVal t) := by
  have hU := unsignedVal_lt h
  have h0 := rd_lt h 0
  have hbytes : ∀ d ∈ [t.rd 7, t.rd 6, t.rd 5, t.rd 4, t.rd 3, t.rd 2, t.rd 1, t.rd 0],
      d < 256 := by
    intro d hd
    simp only [List.mem_cons, List.not_mem_nil, or_false] at hd
    rcases hd with h' | h' | h' | h' | h' | h' | h' | h' <;> rw [h'] <;> exact rd_lt h _
  by_cases hneg : 128 ≤ t.rd 0
  · have hsign := (signBit_iff h).mp hneg
    have hd128 : t.rd 0 &&& 128 = 128 := by rw [and128 h0, if_neg (by omega)]
    have hsv : signedVal t = (unsignedVal t : Int) - 18446744073709551616 := by
      unfold signedVal
      rw [if_neg (by omega)]
    have habs : (signedVal t).natAbs = 18446744073709551616 - unsignedVal t := by
      rw [hsv]; omega
    simp only [toNumber, hd128]
    norm_num
    rw [tnLoop_true_one hbytes, valLSB_bytes]
    have hx : (256 ^ ([t.rd 7, t.rd 6, t.rd 5, t.rd 4, t.rd 3, t.rd 2, t.rd 1,
        t.rd 0].length) - unsignedVal t) % 256 ^ ([t.rd 7, t.rd 6, t.rd 5, t.rd 4,
        t.rd 3, t.rd 2, t.rd 1, t.rd 0].length) = 18446744073709551616 - unsignedVal t := by
      norm_num
      omega
    rw [hx, habs]
    by_cases hc : allow = false ∧ MAX_INT ≤ 18446744073709551616 - unsignedVal t
    · rw [if_pos hc, if_pos hc, if_pos (show signedVal t < 0 by rw [hsv]; omega)]
    · rw [if_neg hc, if_neg hc]
      congr 1
      rw [hsv]
      omega
  · have hsign : unsignedVal t < 9223372036854775808 := by
      by_contra hcc
      exact hneg ((signBit_iff h).mpr (by omega))
    have hd128 : t.rd 0 &&& 128 = 0 := by rw [and128 h0, if_pos (by omega)]
    have hsv : signedVal t = (unsignedVal t : Int) := by
      unfold signedVal
      rw [if_pos (by omega)]
    have habs : (signedVal t).natAbs = unsignedVal t := by rw [hsv]; omega
    simp only [toNumber, hd128]
    norm_num
    rw [tnLoop_false, valLSB_bytes, habs]
    by_cases hc : allow = false ∧ MAX_INT ≤ unsignedVal t
    · rw [if_pos hc, if_pos hc, if_neg (show ¬ signedVal t < 0 by rw [hsv]; omega)]
    · rw [if_neg hc, if_neg hc, hsv]

/-- C6: toNumber(false) — and hence valueOf() — returns the exact signed
integer encoded by the 8 bytes when its magnitude is strictly below 2^53, and
returns +Infinity (value non-negative) or -Infinity (value negative) when the
decoded magnitude reaches or exceeds 2^53. -/
theorem claim_C6_toNumber_precision (t : Int64) (h : Wf t) :
    valueOf t = toNumber t false ∧
    ((signedVal t).natAbs < 9007199254740992 →
      toNumber t false = JsNum.finite (signedVal t)) ∧
    (9007199254740992 ≤ (signedVal t).natAbs →
      toNumber t false = if signedVal t < 0 then JsNum.negInf else JsNum.posInf) := by
  refine ⟨rfl, ?_, ?_⟩ <;> intro hmag <;> rw [toNumber_eq t h false]
  · rw [if_neg]
    unfold MAX_INT
    omega
  · rw [if_pos]
    exact ⟨rfl, hmag⟩

/-- Witness for C6 at two concrete values: bytes 00 00 00 00 00 00 00 05
(value 5, exactly representable) and bytes 80 00 00 00 00 00 00 00
(value -2^63, forced to -Infinity). -/
theorem claim_C6_witness :
    toNumber ⟨[0, 0, 0, 0, 0, 0, 0, 5], 0⟩ false = JsNum.finite 5 ∧
    toNumber ⟨[128, 0, 0, 0, 0, 0, 0, 0], 0⟩ false = JsNum.negInf := by
  constructor
  · have h := claim_C6_toNumber_precision ⟨[0, 0, 0, 0, 0, 0, 0, 5], 0⟩
      (by constructor <;> decide)
    have h2 := h.2.1 (by decide)
    rw [h2]
    decide
  · have h := claim_C6_toNumber_precision ⟨[128, 0, 0, 0, 0, 0, 0, 0], 0⟩
      (by constructor <;> decide)
    have h2 := h.2.2 (by decide)
    rw [h2]
    decide

/-! ## Construct(number): range guard and encoding -/

theorem ratGuard (a : Nat) :
    ((4294967296 : ℚ) < (a : ℚ) / 4294967296) ↔ 18446744073709551616 < a := by
  rw [lt_div_iff₀ (by norm_num : (0 : ℚ) < 4294967296)]
  norm_num

theorem compChain_length (l : List Nat) (c : Nat) : (compChain l c).length = l.length := by
  induction l generalizing c with
  | nil => rfl
  | cons d r ih => simp [compChain, ih]

theorem compChain_bytes (l : List Nat) (c : Nat) : ∀ x ∈ compChain l c, x < 256 := by
  induction l generalizing c with
  | nil => simp [compChain]
  | cons d r ih =>
    simp only [compChain, List.mem_cons]
    rintro x (rfl | hx)
    · rw [and255]
      exact Nat.mod_lt _ (by norm_num)
    · exact ih _ x hx

theorem valLSB_compChain (l : List Nat) (c : Nat) :
    valLSB (compChain l c) = tnLoop true l c := by
  induction l generalizing c with
  | nil => rfl
  | cons d r ih => simp [compChain, tnLoop, valLSB, ih]

theorem twosComp8_length (b : List Nat) : (twosComp8 b).length = b.length := by
  unfold twosComp8
  rw [List.length_reverse, compChain_length, List.length_reverse]

theorem twosComp8_bytes (b : List Nat) : ∀ x ∈ twosComp8 b, x < 256 := by
  intro x hx
  unfold twosComp8 at hx
  rw [List.mem_reverse] at hx
  exact compChain_bytes _ _ x hx

theorem unsignedVal_reverse (m : List Nat) (hm : m.length = 8) :
    unsignedVal ⟨m.reverse, 0⟩ = valLSB m := by
  have hex : ∃ a0 a1 a2 a3 a4 a5 a6 a7, m = [a0, a1, a2, a3, a4, a5, a6, a7] := by
    rcases m with _ | ⟨a0, m⟩
    · simp at hm
    rcases m with _ | ⟨a1, m⟩
    · simp at hm
    rcases m with _ | ⟨a2, m⟩
    · simp at hm
    rcases m with _ | ⟨a3, m⟩
    · simp at hm
    rcases m with _ | ⟨a4, m⟩
    · simp at hm
    rcases m with _ | ⟨a5, m⟩
    · simp at hm
    rcases m with _ | ⟨a6, m⟩
    · simp at hm
    rcases m with _ | ⟨a7, m⟩
    · simp at hm
    rcases m with _ | ⟨a8, m⟩
    · exact ⟨a0, a1, a2, a3, a4, a5, a6, a7, rfl⟩
    · simp at hm
  obtain ⟨a0, a1, a2, a3, a4, a5, a6, a7, rfl⟩ := hex
  show unsignedVal ⟨[a7, a6, a5, a4, a3, a2, a1, a0], 0⟩ = _
  simp only [unsignedVal, rd, valLSB]
  simp only [List.getD, List.getElem?_eq_getElem, List.get?_eq_getElem?]
  norm_num
  ring

theorem unsignedVal_twosComp8 (b : List Nat) (hlen : b.length = 8)
    (hb : ∀ x ∈ b, x < 256) :
    unsignedVal ⟨twosComp8 b, 0⟩ =
      (18446744073709551616 - unsignedVal ⟨b, 0⟩) % 18446744073709551616 := by
  have h1 : (compChain b.reverse 1).length = 8 := by
    rw [compChain_length, List.length_reverse, hlen]
  have hrb : ∀ x ∈ b.reverse, x < 256 := by
    intro x hx
    exact hb x (List.mem_reverse.mp hx)
  have h2 : unsignedVal ⟨b, 0⟩ = valLSB b.reverse := by
    have := unsignedVal_reverse b.reverse (by rw [List.length_reverse, hlen])
    rw [List.reverse_reverse] at this
    exact this
  unfold twosComp8
  rw [unsignedVal_reverse _ h1, valLSB_compChain, tnLoop_true_one hrb, List.length_reverse,
    hlen, h2]
  norm_num

theorem ofNumber_none_iff (n : Int) :
    ofNumber n = none ↔ 18446744073709551616 < n.natAbs := by
  simp only [ofNumber]
  split
  case isTrue hgt => exact iff_of_true rfl ((ratGuard _).mp hgt)
  case isFalse hng =>
    exact iff_of_false (by simp) (fun hc => hng ((ratGuard _).mpr hc))

theorem ofNumber_some {n : Int} (h : n.natAbs ≤ 18446744073709551616) :
    ∃ t, ofNumber n = some t ∧ t.offset = 0 ∧ Wf t ∧
      (unsignedVal t : Int) = n % 18446744073709551616 := by
  have hbuf := writeBytes_replicate (toInt32 ((n.natAbs / 4294967296 : Nat) : Int))
    ((n.natAbs % 4294967296 : Nat) : Int)
  set buf := writeBytes (List.replicate 8 0) 0 (toInt32 ((n.natAbs / 4294967296 : Nat) : Int))
    ((n.natAbs % 4294967296 : Nat) : Int) with hbufdef
  have hlen : buf.length = 8 := by rw [hbuf]; rfl
  have hbytes : ∀ x ∈ buf, x < 256 := by
    rw [hbuf]
    intro x hx
    simp only [List.mem_cons, List.not_mem_nil, or_false] at hx
    rcases hx with h' | h' | h' | h' | h' | h' | h' | h' <;> rw [h'] <;>
      exact Nat.mod_lt _ (by norm_num)
  have hU0 : unsignedVal ⟨buf, 0⟩ = n.natAbs % 18446744073709551616 := by
    have := unsignedVal_ofHiLo (toInt32 ((n.natAbs / 4294967296 : Nat) : Int))
      ((n.natAbs % 4294967296 : Nat) : Int)
    unfold ofHiLo at this
    rw [← hbufdef] at this
    rw [this, toUint32_toInt32, toUint32_ofNat, toUint32_ofNat_lt (Nat.mod_lt _ (by norm_num))]
    omega
  have hguard : ¬ ((4294967296 : ℚ) < (n.natAbs : ℚ) / 4294967296) := by
    rw [ratGuard]
    omega
  by_cases hneg : n < 0
  · refine ⟨⟨twosComp8 buf, 0⟩, ?_, rfl, ?_, ?_⟩
    · simp only [ofNumber, ← hbufdef]
      rw [if_neg hguard, decide_eq_true hneg]
      simp
    · constructor
      · rw [twosComp8_length, hlen]
      · exact twosComp8_bytes buf
    · have := unsignedVal_twosComp8 buf hlen hbytes
      show (unsignedVal ⟨twosComp8 buf, 0⟩ : Int) = _
      rw [this, hU0]
      omega
  · refine ⟨⟨buf, 0⟩, ?_, rfl, ⟨by simp [hlen], hbytes⟩, ?_⟩
    · simp only [ofNumber, ← hbufdef]
      rw [if_neg hguard, decide_eq_false hneg]
      simp
    · show (unsignedVal ⟨buf, 0⟩ : Int) = _
      rw [hU0]
      omega

/-- C3 counterexample: at n = 2^64 + 2^31 the claimed throw condition
floor(abs n / 2^32) > 2^32 is false (the floored quotient is exactly 2^32),
yet the constructor throws: the source compares the un-floored quotient. -/
theorem claim_C3_counterexample :
    ofNumber 18446744075857035264 = none ∧
    ¬ (4294967296 < (18446744075857035264 : Int).natAbs / 4294967296) := by
  constructor
  · rw [ofNumber_none_iff]
    decide
  · decide

/-- C3 amended: the single-number setValue throws a RangeError exactly when
abs(n) / 2^32 exceeds 2^32 before flooring, i.e. exactly when abs(n) > 2^64
(so hi = 2^32 with a zero fractional part is still admitted); when no error is
thrown, hi/lo are written big-endian into the 8 bytes and, if n < 0,
two's-complement negation is applied in place, leaving bytes whose unsigned
value is n mod 2^64. -/
theorem claim_C3_amended (n : Int) :
    (ofNumber n = none ↔ 18446744073709551616 < n.natAbs) ∧
    (∀ t, ofNumber n = some t →
      t.offset = 0 ∧ Wf t ∧ (unsignedVal t : Int) = n % 18446744073709551616) := by
  refine ⟨ofNumber_none_iff n, ?_⟩
  intro t ht
  by_cases hle : n.natAbs ≤ 18446744073709551616
  · obtain ⟨t0, ht0, hprops⟩ := ofNumber_some hle
    rw [ht0] at ht
    cases ht
    exact hprops
  · exfalso
    rw [(ofNumber_none_iff n).mpr (by omega)] at ht
    cases ht

/-- Computation rule for `ofNumber` with the range guard restated over Nat
(the exact rational comparison n/2^32 > 2^32 is equivalent to abs n > 2^64). -/
theorem ofNumber_eq (n : Int) :
    ofNumber n =
      if 18446744073709551616 < n.natAbs then none
      else
        some ⟨(if n < 0 then
            twosComp8 (writeBytes (List.replicate 8 0) 0
              (toInt32 ((n.natAbs / 4294967296 : Nat) : Int))
              ((n.natAbs % 4294967296 : Nat) : Int))
          else
            writeBytes (List.replicate 8 0) 0
              (toInt32 ((n.natAbs / 4294967296 : Nat) : Int))
              ((n.natAbs % 4294967296 : Nat) : Int)), 0⟩ := by
  simp only [ofNumber]
  by_cases hg : (4294967296 : ℚ) < (n.natAbs : ℚ) / 4294967296
  · rw [if_pos hg, if_pos ((ratGuard _).mp hg)]
  · rw [if_neg hg, if_neg (fun hc => hg ((ratGuard _).mpr hc))]
    by_cases hneg : n < 0
    · rw [decide_eq_true hneg, if_pos hneg, if_pos rfl]
    · rw [decide_eq_false hneg, if_neg hneg, if_neg (by simp)]

/-- Witness for C3 at n = -5: construction succeeds and stores the
two's-complement pattern of -5. -/
theorem claim_C3_amended_witness :
    ∃ t, ofNumber (-5) = some t ∧
      t.offset = 0 ∧ Wf t ∧ (unsignedVal t : Int) = (-5 : Int) % 18446744073709551616 := by
  have e : ofNumber (-5) = some ⟨[255, 255, 255, 255, 255, 255, 255, 251], 0⟩ := by
    rw [ofNumber_eq]
    decide
  exact ⟨_, e, (claim_C3_amended (-5)).2 _ e⟩

/-- C7: Construct(n).toNumber(true) = n for every integer n in [-2^53, 2^53]
(negative values and zero included), and also at the spec's named boundary
value 1e18 (which lies outside that interval but where the JS double
accumulation is still exact, every partial sum being representable). -/
theorem claim_C7_number_roundTrip :
    (∀ n : Int, n.natAbs ≤ 9007199254740992 →
      ∃ t, ofNumber n = some t ∧ toNumber t true = JsNum.finite n) ∧
    (∃ t, ofNumber 1000000000000000000 = some t ∧
      toNumber t true = JsNum.finite 1000000000000000000) := by
  have main : ∀ n : Int, n.natAbs ≤ 9007199254740992 →
      ∃ t, ofNumber n = some t ∧ toNumber t true = JsNum.finite n := by
    intro n h
    obtain ⟨t, ht, hoff, hwf, hU⟩ :=
      ofNumber_some (show n.natAbs ≤ 18446744073709551616 by omega)
    refine ⟨t, ht, ?_⟩
    rw [toNumber_eq t hwf true]
    rw [if_neg (by simp)]
    have hsv : signedVal t = n := by
      unfold signedVal
      split
      · omega
      · omega
    rw [hsv]
  refine ⟨main, ?_⟩
  have e : ofNumber 1000000000000000000 =
      some ⟨[13, 224, 182, 179, 167, 100, 0, 0], 0⟩ := by
    rw [ofNumber_eq]
    decide
  refine ⟨_, e, ?_⟩
  decide

/-- Witness for C7 at n = -7. -/
theorem claim_C7_witness :
    (-7 : Int).natAbs ≤ 9007199254740992 ∧
    ∃ t, ofNumber (-7) = some t ∧ toNumber t true = JsNum.finite (-7) :=
  ⟨by decide, claim_C7_number_roundTrip.1 (-7) (by decide)⟩

/-! ## Comparison -/

/-- Lexicographic byte loop of `compare`
(`for (i = 0; i < 8; i++) if (a[i] !== b[i]) return a[i] - b[i]; return 0`). -/
def cmpLoop : List Nat → List Nat → Int
  | x :: xs, y :: ys => if x ≠ y then (x : Int) - (y : Int) else cmpLoop xs ys
  | _, _ => 0

/-- Source `compare(other)`: resolve differing sign bits by the byte difference
`other[o] - this[o]`, otherwise compare the 8 bytes lexicographically. -/
def compare (a b : Int64) : Int :=
  if a.rd 0 &&& 128 ≠ b.rd 0 &&& 128 then (b.rd 0 : Int) - (a.rd 0 : Int)
  else
    cmpLoop [a.rd 0, a.rd 1, a.rd 2, a.rd 3, a.rd 4, a.rd 5, a.rd 6, a.rd 7]
      [b.rd 0, b.rd 1, b.rd 2, b.rd 3, b.rd 4, b.rd 5, b.rd 6, b.rd 7]

/-- Source `equals(other)`: `compare(other) === 0`. -/
def equals (a b : Int64) : Bool := compare a b = 0

/-- Head-weighted value of a most-significant-first byte list. -/
def valMSB : List Nat → Nat
  | [] => 0
  | d :: rest => d * 256 ^ rest.length + valMSB rest

theorem valMSB_lt {l : List Nat} (h : ∀ d ∈ l, d < 256) : valMSB l < 256 ^ l.length := by
  induction l with
  | nil => simp [valMSB]
  | cons d r ih =>
    rw [List.forall_mem_cons] at h
    have hr := ih h.2
    have hd := h.1
    simp only [valMSB, List.length_cons, pow_succ]
    have hpow : 0 < (256 : Nat) ^ r.length := pow_pos (by norm_num) _
    nlinarith

theorem cmpLoop_cons (x y : Nat) (xs ys : List Nat) :
    cmpLoop (x :: xs) (y :: ys) = if x ≠ y then (x : Int) - (y : Int) else cmpLoop xs ys := rfl

theorem cmpLoop_antisym (xs ys : List Nat) : cmpLoop xs ys = -cmpLoop ys xs := by
  induction xs generalizing ys with
  | nil => cases ys <;> simp [cmpLoop]
  | cons x xs ih =>
    cases ys with
    | nil => simp [cmpLoop]
    | cons y ys =>
      by_cases hxy : x = y
      · subst hxy
        rw [cmpLoop_cons, cmpLoop_cons, if_neg (by simp), if_neg (by simp)]
        exact ih ys
      · rw [cmpLoop_cons, cmpLoop_cons, if_pos hxy, if_pos (Ne.symm hxy)]
        omega

theorem cmpLoop_eq_zero_iff {xs ys : List Nat} (hlen : xs.length = ys.length) :
    cmpLoop xs ys = 0 ↔ xs = ys := by
  induction xs generalizing ys with
  | nil =>
    cases ys with
    | nil => simp [cmpLoop]
    | cons y ys => simp at hlen
  | cons x xs ih =>
    cases ys with
    | nil => simp at hlen
    | cons y ys =>
      simp only [List.length_cons, Nat.succ_inj] at hlen
      by_cases hxy : x = y
      · subst hxy
        rw [cmpLoop_cons, if_neg (by simp), ih hlen]
        simp
      · rw [cmpLoop_cons, if_pos hxy]
        constructor
        · intro hc
          exfalso
          omega
        · intro hc
          exfalso
          exact hxy (by injection hc)

theorem cmpLoop_neg_iff {xs ys : List Nat} (hlen : xs.length = ys.length)
    (hx : ∀ d ∈ xs, d < 256) (hy : ∀ d ∈ ys, d < 256) :
    cmpLoop xs ys < 0 ↔ valMSB xs < valMSB ys := by
  induction xs generalizing ys with
  | nil =>
    cases ys with
    | nil => simp [cmpLoop, valMSB]
    | cons y ys => simp at hlen
  | cons x xs ih =>
    cases ys with
    | nil => simp at hlen
    | cons y ys =>
      simp only [List.length_cons, Nat.succ_inj] at hlen
      rw [List.forall_mem_cons] at hx hy
      have hxs := valMSB_lt hx.2
      have hys := valMSB_lt hy.2
      rw [hlen] at hxs
      by_cases hxy : x = y
      · subst hxy
        rw [cmpLoop_cons, if_neg (by simp), ih hlen hx.2 hy.2]
        simp only [valMSB, hlen]
        omega
      · rw [cmpLoop_cons, if_pos hxy]
        simp only [valMSB, hlen]
        set P := (256 : Nat) ^ ys.length with hP
        constructor
        · intro hc
          have hxly : x < y := by omega
          have step : x * P + valMSB xs < (x + 1) * P := by
            rw [add_mul, one_mul]
            omega
          have step2 : (x + 1) * P ≤ y * P := Nat.mul_le_mul_right P (by omega)
          omega
        · intro hc
          by_contra hge
          have hylx : y < x := by omega
          have step : y * P + valMSB ys < (y + 1) * P := by
            rw [add_mul, one_mul]
            omega
          have step2 : (y + 1) * P ≤ x * P := Nat.mul_le_mul_right P (by omega)
          omega

theorem valMSB_bytes (t : Int64) :
    valMSB [t.rd 0, t.rd 1, t.rd 2, t.rd 3, t.rd 4, t.rd 5, t.rd 6, t.rd 7] =
      unsignedVal t := by
  simp only [valMSB, unsignedVal, List.length_cons, List.length_nil]
  norm_num
  ring

theorem compare_antisym (a b : Int64) : compare a b = -compare b a := by
  unfold compare
  by_cases hc : a.rd 0 &&& 128 ≠ b.rd 0 &&& 128
  · rw [if_pos hc, if_pos (Ne.symm hc)]
    omega
  · rw [if_neg hc, if_neg (fun h => hc (Ne.symm h))]
    exact cmpLoop_antisym _ _

theorem signedVal_lt_iff {a b : Int64} (ha : Wf a) (hb : Wf b)
    (hsign : (128 ≤ a.rd 0) = (128 ≤ b.rd 0)) :
    (signedVal a < signedVal b ↔ unsignedVal a < unsignedVal b) := by
  have hA := unsignedVal_lt ha
  have hB := unsignedVal_lt hb
  have hsa := signBit_iff ha
  have hsb := signBit_iff hb
  have hss : (9223372036854775808 ≤ unsignedVal a) ↔ (9223372036854775808 ≤ unsignedVal b) := by
    rw [← hsa, ← hsb, hsign]
  unfold signedVal
  split_ifs <;> omega

theorem compare_neg_iff (a b : Int64) (ha : Wf a) (hb : Wf b) :
    compare a b < 0 ↔ signedVal a < signedVal b := by
  have ha0 := rd_lt ha 0
  have hb0 := rd_lt hb 0
  have hA := unsignedVal_lt ha
  have hB := unsignedVal_lt hb
  have habytes : ∀ d ∈ [a.rd 0, a.rd 1, a.rd 2, a.rd 3, a.rd 4, a.rd 5, a.rd 6, a.rd 7],
      d < 256 := by
    intro d hd
    simp only [List.mem_cons, List.not_mem_nil, or_false] at hd
    rcases hd with h' | h' | h' | h' | h' | h' | h' | h' <;> rw [h'] <;> exact rd_lt ha _
  have hbbytes : ∀ d ∈ [b.rd 0, b.rd 1, b.rd 2, b.rd 3, b.rd 4, b.rd 5, b.rd 6, b.rd 7],
      d < 256 := by
    intro d hd
    simp only [List.mem_cons, List.not_mem_nil, or_false] at hd
    rcases hd with h' | h' | h' | h' | h' | h' | h' | h' <;> rw [h'] <;> exact rd_lt hb _
  unfold compare
  by_cases hc : a.rd 0 &&& 128 ≠ b.rd 0 &&& 128
  · rw [if_pos hc]
    rw [and128 ha0, and128 hb0] at hc
    by_cases hax : a.rd 0 < 128
    · have hbx : ¬ b.rd 0 < 128 := by
        intro hbx
        rw [if_pos hax, if_pos hbx] at hc
        exact hc rfl
      have hsa : unsignedVal a < 9223372036854775808 := by
        by_contra hcc
        have := (signBit_iff ha).mpr (by omega)
        omega
      have hsb : 9223372036854775808 ≤ unsignedVal b := (signBit_iff hb).mp (by omega)
      unfold signedVal
      rw [if_pos (by omega), if_neg (by omega)]
      constructor <;> intro hcc <;> omega
    · have hbx : b.rd 0 < 128 := by
        by_contra hbx
        rw [if_neg hax, if_neg hbx] at hc
        exact hc rfl
      have hsa : 9223372036854775808 ≤ unsignedVal a := (signBit_iff ha).mp (by omega)
      have hsb : unsignedVal b < 9223372036854775808 := by
        by_contra hcc
        have := (signBit_iff hb).mpr (by omega)
        omega
      unfold signedVal
      rw [if_neg (by omega), if_pos (by omega)]
      constructor <;> intro hcc <;> omega
  · rw [if_neg hc]
    rw [and128 ha0, and128 hb0] at hc
    have hsign : (128 ≤ a.rd 0) = (128 ≤ b.rd 0) := by
      by_cases hax : a.rd 0 < 128 <;> by_cases hbx : b.rd 0 < 128 <;>
        simp only [hax, hbx, if_pos, if_neg] at hc ⊢ <;> simp_all <;> omega
    rw [cmpLoop_neg_iff (by simp) habytes hbbytes, valMSB_bytes, valMSB_bytes,
      signedVal_lt_iff ha hb hsign]

/-- C5: compare is negative, zero, or positive exactly as the signed
two's-complement value of a is less than, equal to, or greater than that of b;
compare is antisymmetric in sign; equals is true iff compare is 0. -/
theorem claim_C5_compare_order (a b : Int64) (ha : Wf a) (hb : Wf b) :
    (compare a b < 0 ↔ signedVal a < signedVal b) ∧
    (compare a b = 0 ↔ signedVal a = signedVal b) ∧
    (0 < compare a b ↔ signedVal b < signedVal a) ∧
    compare a b = -compare b a ∧
    (equals a b = true ↔ compare a b = 0) := by
  have hlt := compare_neg_iff a b ha hb
  have hlt2 := compare_neg_iff b a hb ha
  have hanti := compare_antisym a b
  have hgt : 0 < compare a b ↔ signedVal b < signedVal a := by
    rw [hanti]
    omega
  refine ⟨hlt, ?_, hgt, hanti, ?_⟩
  · constructor
    · intro h0
      have h1 : ¬ compare a b < 0 := by omega
      have h2 : ¬ 0 < compare a b := by omega
      rw [hlt] at h1
      rw [hgt] at h2
      omega
    · intro hsv
      have h1 : ¬ compare a b < 0 := by rw [hlt]; omega
      have h2 : ¬ 0 < compare a b := by rw [hgt]; omega
      omega
  · simp [equals]

/-- Witness for C5: INT64_MIN < 0 via the theorem's order correspondence. -/
theorem claim_C5_witness :
    compare ⟨[128, 0, 0, 0, 0, 0, 0, 0], 0⟩ ⟨[0, 0, 0, 0, 0, 0, 0, 0], 0⟩ < 0 ∧
    equals ⟨[128, 0, 0, 0, 0, 0, 0, 0], 0⟩ ⟨[128, 0, 0, 0, 0, 0, 0, 0], 0⟩ = true := by
  constructor
  · have h := claim_C5_compare_order ⟨[128, 0, 0, 0, 0, 0, 0, 0], 0⟩
      ⟨[0, 0, 0, 0, 0, 0, 0, 0], 0⟩ (by constructor <;> decide) (by constructor <;> decide)
    rw [h.1]
    decide
  · have h := claim_C5_compare_order ⟨[128, 0, 0, 0, 0, 0, 0, 0], 0⟩
      ⟨[128, 0, 0, 0, 0, 0, 0, 0], 0⟩ (by constructor <;> decide) (by constructor <;> decide)
    rw [h.2.2.2.2, h.2.1]

/-! ## Construct(hexString) -/

/-- Character class accepted by JS parseInt with radix 16 (0-9, a-f, A-F). -/
def isHexDigit (c : Char) : Bool :=
  (48 ≤ c.toNat ∧ c.toNat ≤ 57) ∨ (97 ≤ c.toNat ∧ c.toNat ≤ 102) ∨
    (65 ≤ c.toNat ∧ c.toNat ≤ 70)

/-- Value of a hex digit character. -/
def hexDigitVal (c : Char) : Nat :=
  if 48 ≤ c.toNat ∧ c.toNat ≤ 57 then c.toNat - 48
  else if 97 ≤ c.toNat then c.toNat - 87
  else c.toNat - 55

/-- Value of a hex digit string. -/
def hexVal (l : List Char) : Nat :=
  l.foldl (fun a c => a * 16 + hexDigitVal c) 0

/-- JS `parseInt(s, 16)`: skip an optional `0x`/`0X` prefix, read the longest
leading run of hex digits, NaN (`none`) if that run is empty.  (The signs and
whitespace parseInt also accepts never occur in the inputs modelled here.) -/
def parseIntHex (l : List Char) : Option Nat :=
  let l2 := if l.take 2 = ['0', 'x'] ∨ l.take 2 = ['0', 'X'] then l.drop 2 else l
  let digits := l2.takeWhile isHexDigit
  if digits = [] then none else some (hexVal digits)

/-- Construct(hexString): the single-string `setValue` path.
`replace(/^0x/, '')` strips only a lowercase `0x`; `substr(-8)` takes the last
8 characters (all of them when shorter); the part before them (empty when the
string has at most 8 characters) is the high word.  A NaN result of parseInt
reaches the byte loop only through ToUint32, which sends it to 0, so it is
modelled as 0 at the loop boundary. -/
def ofHexString (s : List Char) : Int64 :=
  let s1 := if s.take 2 = ['0', 'x'] then s.drop 2 else s
  let loStr := s1.drop (s1.length - 8)
  let hiStr := if s1.length > 8 then s1.take (s1.length - 8) else []
  ⟨writeBytes (List.replicate 8 0) 0 (((parseIntHex hiStr).getD 0 : Nat) : Int)
    (((parseIntHex loStr).getD 0 : Nat) : Int), 0⟩

/-- Hi/lo split described by claim C8: strip `0x` or `0X`, last 8 remaining
characters are the low word, the ones before them the high word, each read as
unsigned hex. -/
def specHexSplit (s : List Char) : Nat × Nat :=
  let s1 := if s.take 2 = ['0', 'x'] ∨ s.take 2 = ['0', 'X'] then s.drop 2 else s
  (hexVal (s1.take (s1.length - 8)), hexVal (s1.drop (s1.length - 8)))

theorem hexDigitVal_lt {c : Char} (h : isHexDigit c = true) : hexDigitVal c < 16 := by
  unfold isHexDigit at h
  unfold hexDigitVal
  simp only [decide_eq_true_eq] at h
  split_ifs <;> omega

theorem hexVal_acc (ys : List Char) (a : Nat) :
    ys.foldl (fun a c => a * 16 + hexDigitVal c) a = a * 16 ^ ys.length + hexVal ys := by
  induction ys generalizing a with
  | nil => simp [hexVal]
  | cons c ys ih =>
    simp only [List.foldl_cons, List.length_cons]
    rw [ih (a * 16 + hexDigitVal c),
      show hexVal (c :: ys) = (0 * 16 + hexDigitVal c) * 16 ^ ys.length + hexVal ys from ih _]
    ring

theorem hexVal_cons (c : Char) (ys : List Char) :
    hexVal (c :: ys) = hexDigitVal c * 16 ^ ys.length + hexVal ys := by
  rw [show hexVal (c :: ys) = (0 * 16 + hexDigitVal c) * 16 ^ ys.length + hexVal ys from
    hexVal_acc ys _]
  ring

theorem hexVal_append (xs ys : List Char) :
    hexVal (xs ++ ys) = hexVal xs * 16 ^ ys.length + hexVal ys := by
  unfold hexVal
  rw [List.foldl_append]
  exact hexVal_acc ys _

theorem hexVal_lt {l : List Char} (h : ∀ c ∈ l, isHexDigit c = true) :
    hexVal l < 16 ^ l.length := by
  induction l with
  | nil => simp [hexVal]
  | cons c ys ih =>
    rw [List.forall_mem_cons] at h
    rw [hexVal_cons]
    have hd := hexDigitVal_lt h.1
    have hr := ih h.2
    simp only [List.length_cons, pow_succ]
    nlinarith [pow_pos (show 0 < (16 : Nat) by norm_num) ys.length]

theorem takeWhile_hex {l : List Char} (h : ∀ c ∈ l, isHexDigit c = true) :
    l.takeWhile isHexDigit = l := by
  induction l with
  | nil => rfl
  | cons c ys ih =>
    rw [List.forall_mem_cons] at h
    rw [List.takeWhile_cons, if_pos h.1, ih h.2]

theorem parseIntHex_hex {l : List Char} (hne : l ≠ []) (h : ∀ c ∈ l, isHexDigit c = true) :
    parseIntHex l = some (hexVal l) := by
  have hx : ∀ a b : Char, l.take 2 = [a, b] → b ∈ l := by
    intro a b htake
    cases l with
    | nil => simp at htake
    | cons c0 l0 =>
      cases l0 with
      | nil => simp [List.take] at htake
      | cons c1 l1 =>
        simp [List.take] at htake
        rcases htake with ⟨h1, h2⟩
        subst h2
        simp
  have hnx : ¬ (l.take 2 = ['0', 'x'] ∨ l.take 2 = ['0', 'X']) := by
    rintro (hc | hc)
    · have := h _ (hx _ _ hc)
      simp [isHexDigit] at this
    · have := h _ (hx _ _ hc)
      simp [isHexDigit] at this
  unfold parseIntHex
  rw [if_neg hnx]
  simp only [takeWhile_hex h]
  rw [if_neg hne]

theorem writeVal {hi lo : Nat} (hhi : hi < 4294967296) (hlo : lo < 4294967296) :
    unsignedVal ⟨writeBytes (List.replicate 8 0) 0 (hi : Int) (lo : Int), 0⟩ =
      hi * 4294967296 + lo := by
  have h := unsignedVal_ofHiLo (hi : Int) (lo : Int)
  unfold ofHiLo at h
  rw [h, toUint32_ofNat_lt hhi, toUint32_ofNat_lt hlo]

theorem hexCore {d : List Char} (hne : d ≠ []) (hlen : d.length ≤ 16)
    (hhex : ∀ c ∈ d, isHexDigit c = true) :
    unsignedVal ⟨writeBytes (List.replicate 8 0) 0
        (((parseIntHex (if d.length > 8 then d.take (d.length - 8) else [])).getD 0 : Nat) : Int)
        (((parseIntHex (d.drop (d.length - 8))).getD 0 : Nat) : Int), 0⟩ = hexVal d := by
  have hdl : 0 < d.length := List.length_pos.mpr hne
  have hlo_mem : ∀ c ∈ d.drop (d.length - 8), isHexDigit c = true :=
    fun c hc => hhex c (List.drop_subset _ _ hc)
  have hlo_ne : d.drop (d.length - 8) ≠ [] := by
    intro hcon
    have hl := congrArg List.length hcon
    rw [List.length_drop] at hl
    simp at hl
    omega
  have hlo_len : (d.drop (d.length - 8)).length ≤ 8 := by
    rw [List.length_drop]
    omega
  have hlo_lt : hexVal (d.drop (d.length - 8)) < 4294967296 :=
    calc hexVal (d.drop (d.length - 8)) < 16 ^ (d.drop (d.length - 8)).length :=
          hexVal_lt hlo_mem
      _ ≤ 16 ^ 8 := Nat.pow_le_pow_right (by norm_num) hlo_len
      _ ≤ 4294967296 := by norm_num
  rw [parseIntHex_hex hlo_ne hlo_mem]
  by_cases hbig : d.length > 8
  · rw [if_pos hbig]
    have hhi_mem : ∀ c ∈ d.take (d.length - 8), isHexDigit c = true :=
      fun c hc => hhex c (List.take_subset _ _ hc)
    have hhi_ne : d.take (d.length - 8) ≠ [] := by
      intro hcon
      have hl := congrArg List.length hcon
      rw [List.length_take] at hl
      simp at hl
      omega
    have hhi_lt : hexVal (d.take (d.length - 8)) < 4294967296 :=
      calc hexVal (d.take (d.length - 8)) < 16 ^ (d.take (d.length - 8)).length :=
            hexVal_lt hhi_mem
        _ ≤ 16 ^ 8 := Nat.pow_le_pow_right (by norm_num) (by rw [List.length_take]; omega)
        _ ≤ 4294967296 := by norm_num
    rw [parseIntHex_hex hhi_ne hhi_mem]
    simp only [Option.getD_some]
    rw [writeVal hhi_lt hlo_lt]
    have hsplit := hexVal_append (d.take (d.length - 8)) (d.drop (d.length - 8))
    rw [List.take_append_drop] at hsplit
    have hdl8 : (d.drop (d.length - 8)).length = 8 := by
      rw [List.length_drop]
      omega
    rw [hsplit, hdl8]
    norm_num
  · rw [if_neg hbig]
    have hd0 : d.drop (d.length - 8) = d := by
      have h8 : d.length - 8 = 0 := by omega
      rw [h8, List.drop_zero]
    rw [hd0] at hlo_lt ⊢
    rw [show parseIntHex [] = none from rfl]
    simp only [Option.getD_none, Option.getD_some]
    rw [writeVal (show (0 : Nat) < 4294967296 by norm_num) hlo_lt]
    simp

theorem take2_second_mem {l : List Char} {a b : Char} (h : l.take 2 = [a, b]) : b ∈ l := by
  cases l with
  | nil => simp at h
  | cons c0 l0 =>
    cases l0 with
    | nil => simp [List.take] at h
    | cons c1 l1 =>
      simp [List.take] at h
      rcases h with ⟨h1, h2⟩
      subst h2
      simp

theorem take2_not_0x {l : List Char} (h : ∀ c ∈ l, isHexDigit c = true) :
    ¬ l.take 2 = ['0', 'x'] := by
  intro hc
  have := h _ (take2_second_mem hc)
  simp [isHexDigit] at this

theorem recombine {d : List Char} (hlen : d.length ≤ 16) (h8 : 8 < d.length) :
    hexVal (d.take (d.length - 8)) * 4294967296 + hexVal (d.drop (d.length - 8)) =
      hexVal d := by
  have hsplit := hexVal_append (d.take (d.length - 8)) (d.drop (d.length - 8))
  rw [List.take_append_drop] at hsplit
  have hdl8 : (d.drop (d.length - 8)).length = 8 := by
    rw [List.length_drop]
    omega
  rw [hsplit, hdl8]
  norm_num

theorem ofHexString_plain {d : List Char} (hne : d ≠ []) (hlen : d.length ≤ 16)
    (hhex : ∀ c ∈ d, isHexDigit c = true) :
    unsignedVal (ofHexString d) = hexVal d := by
  simp only [ofHexString]
  rw [if_neg (take2_not_0x hhex)]
  exact hexCore hne hlen hhex

theorem ofHexString_0x {d : List Char} (hne : d ≠ []) (hlen : d.length ≤ 16)
    (hhex : ∀ c ∈ d, isHexDigit c = true) :
    unsignedVal (ofHexString (['0', 'x'] ++ d)) = hexVal d := by
  simp only [ofHexString]
  rw [if_pos (show (['0', 'x'] ++ d).take 2 = ['0', 'x'] from rfl)]
  rw [show (['0', 'x'] ++ d).drop 2 = d from rfl]
  exact hexCore hne hlen hhex

theorem length_0X (d : List Char) : (['0', 'X'] ++ d).length = d.length + 2 := by
  simp

theorem ofHexString_0X {d : List Char} (hne : d ≠ []) (hlen : d.length ≤ 16)
    (hhex : ∀ c ∈ d, isHexDigit c = true) :
    unsignedVal (ofHexString (['0', 'X'] ++ d)) =
      if d.length = 7 then 0 else hexVal d := by
  have hdl : 0 < d.length := List.length_pos.mpr hne
  have hnx : ¬ (['0', 'X'] ++ d).take 2 = ['0', 'x'] := by
    intro hc
    have hc2 : (['0', 'X'] : List Char) = ['0', 'x'] := hc
    exact absurd hc2 (by decide)
  simp only [ofHexString]
  rw [if_neg hnx]
  simp only [length_0X]
  by_cases h7 : d.length = 7
  · rw [if_pos h7]
    simp only [h7]
    rw [if_pos (show 7 + 2 > 8 by norm_num)]
    rw [show (7 : Nat) + 2 - 8 = 1 from rfl]
    rw [show (['0', 'X'] ++ d).take 1 = ['0'] from rfl]
    rw [show (['0', 'X'] ++ d).drop 1 = 'X' :: d from rfl]
    rw [show parseIntHex ['0'] = some 0 by decide]
    have hcond : ¬ (('X' :: d).take 2 = ['0', 'x'] ∨ ('X' :: d).take 2 = ['0', 'X']) := by
      have e : ('X' :: d).take 2 = 'X' :: d.take 1 := rfl
      rw [e]
      rintro (hc | hc) <;> (injection hc with h1 h2; exact absurd h1 (by decide))
    have hX : parseIntHex ('X' :: d) = none := by
      simp only [parseIntHex]
      rw [if_neg hcond]
      rw [show ('X' :: d).takeWhile isHexDigit = [] from by
        rw [List.takeWhile_cons, if_neg (by decide)]]
      rw [if_pos rfl]
    rw [hX]
    simp only [Option.getD_none, Option.getD_some]
    rw [writeVal (show (0 : Nat) < 4294967296 by norm_num)
      (show (0 : Nat) < 4294967296 by norm_num)]
  · rw [if_neg h7]
    by_cases h6 : d.length ≤ 6
    · rw [if_neg (show ¬ d.length + 2 > 8 by omega)]
      rw [show d.length + 2 - 8 = 0 from by omega, List.drop_zero]
      have hp : parseIntHex (['0', 'X'] ++ d) = some (hexVal d) := by
        simp only [parseIntHex]
        rw [if_pos (Or.inr (show (['0', 'X'] ++ d).take 2 = ['0', 'X'] from rfl))]
        rw [show (['0', 'X'] ++ d).drop 2 = d from rfl]
        rw [takeWhile_hex hhex, if_neg hne]
      rw [hp, show parseIntHex [] = none from rfl]
      simp only [Option.getD_none, Option.getD_some]
      have hvlt : hexVal d < 4294967296 :=
        calc hexVal d < 16 ^ d.length := hexVal_lt hhex
          _ ≤ 16 ^ 6 := Nat.pow_le_pow_right (by norm_num) h6
          _ ≤ 4294967296 := by norm_num
      rw [writeVal (show (0 : Nat) < 4294967296 by norm_num) hvlt]
      simp
    · have h8 : 8 ≤ d.length := by omega
      rw [if_pos (show d.length + 2 > 8 by omega)]
      rw [show d.length + 2 - 8 = (d.length - 8) + 1 + 1 from by omega]
      rw [show (['0', 'X'] ++ d).drop ((d.length - 8) + 1 + 1) = d.drop (d.length - 8)
        from rfl]
      rw [show (['0', 'X'] ++ d).take ((d.length - 8) + 1 + 1) =
        '0' :: 'X' :: d.take (d.length - 8) from rfl]
      have hlo_mem : ∀ c ∈ d.drop (d.length - 8), isHexDigit c = true :=
        fun c hc => hhex c (List.drop_subset _ _ hc)
      have hlo_ne : d.drop (d.length - 8) ≠ [] := by
        intro hcon
        have hl := congrArg List.length hcon
        rw [List.length_drop] at hl
        simp at hl
        omega
      have hlo_lt : hexVal (d.drop (d.length - 8)) < 4294967296 :=
        calc hexVal (d.drop (d.length - 8)) < 16 ^ (d.drop (d.length - 8)).length :=
              hexVal_lt hlo_mem
          _ ≤ 16 ^ 8 := Nat.pow_le_pow_right (by norm_num) (by rw [List.length_drop]; omega)
          _ ≤ 4294967296 := by norm_num
      rw [parseIntHex_hex hlo_ne hlo_mem]
      have hhi : parseIntHex ('0' :: 'X' :: d.take (d.length - 8)) =
          if d.take (d.length - 8) = [] then none
          else some (hexVal (d.take (d.length - 8))) := by
        simp only [parseIntHex]
        rw [if_pos (Or.inr (show ('0' :: 'X' :: d.take (d.length - 8)).take 2 = ['0', 'X']
          from rfl))]
        rw [show ('0' :: 'X' :: d.take (d.length - 8)).drop 2 = d.take (d.length - 8)
          from rfl]
        rw [takeWhile_hex (fun c hc => hhex c (List.take_subset _ _ hc))]
      rw [hhi]
      by_cases h88 : d.length = 8
      · rw [if_pos (by rw [h88]; simp)]
        simp only [Option.getD_none, Option.getD_some]
        have hd0 : d.drop (d.length - 8) = d := by
          rw [h88]
          simp
        rw [hd0] at hlo_lt ⊢
        rw [writeVal (show (0 : Nat) < 4294967296 by norm_num) hlo_lt]
        simp
      · have h8lt : 8 < d.length := by omega
        rw [if_neg (by
          intro hcon
          have hl := congrArg List.length hcon
          rw [List.length_take] at hl
          simp at hl
          omega)]
        simp only [Option.getD_some]
        have hhi_lt : hexVal (d.take (d.length - 8)) < 4294967296 :=
          calc hexVal (d.take (d.length - 8)) < 16 ^ (d.take (d.length - 8)).length :=
                hexVal_lt (fun c hc => hhex c (List.take_subset _ _ hc))
            _ ≤ 16 ^ 8 := Nat.pow_le_pow_right (by norm_num)
                (by rw [List.length_take]; omega)
            _ ≤ 4294967296 := by norm_num
        rw [writeVal hhi_lt hlo_lt]
        exact recombine hlen h8lt

/-- C8 counterexample: on "0X1234567" (uppercase prefix, 7 digits) the claimed
algorithm strips the prefix and stores low word 0x1234567, but the code leaves
the prefix, splits off "X1234567" as the low slice, parseInt returns NaN and
the stored value is 0. -/
theorem claim_C8_counterexample :
    unsignedVal (ofHexString ['0', 'X', '1', '2', '3', '4', '5', '6', '7']) = 0 ∧
    (specHexSplit ['0', 'X', '1', '2', '3', '4', '5', '6', '7']).1 = 0 ∧
    (specHexSplit ['0', 'X', '1', '2', '3', '4', '5', '6', '7']).2 = 19088743 := by
  refine ⟨?_, ?_, ?_⟩ <;> decide

/-- C8 amended: the initial replace strips only a lowercase 0x; the last 8
remaining characters are the low word and the earlier ones the high word, each
read by parseInt(-, 16), which itself tolerates a 0x/0X prefix and turns an
empty or unparsable slice into NaN, stored as 0.  Hence a hex numeral d of at
most 16 digits stores the literal bit pattern hexVal d whether bare, with a
lowercase 0x prefix, or with an uppercase 0X prefix - except that 0X followed
by exactly 7 digits puts the X into the low slice and stores 0.  No negation
is applied: a numeral with the top bit set encodes a negative value through
the bit pattern itself. -/
theorem claim_C8_amended (d : List Char) (hne : d ≠ []) (hlen : d.length ≤ 16)
    (hhex : ∀ c ∈ d, isHexDigit c = true) :
    unsignedVal (ofHexString d) = hexVal d ∧
    unsignedVal (ofHexString (['0', 'x'] ++ d)) = hexVal d ∧
    unsignedVal (ofHexString (['0', 'X'] ++ d)) = (if d.length = 7 then 0 else hexVal d) ∧
    (9223372036854775808 ≤ hexVal d →
      signedVal (ofHexString d) = (hexVal d : Int) - 18446744073709551616) := by
  refine ⟨ofHexString_plain hne hlen hhex, ofHexString_0x hne hlen hhex,
    ofHexString_0X hne hlen hhex, ?_⟩
  intro hge
  unfold signedVal
  rw [ofHexString_plain hne hlen hhex]
  rw [if_neg (by omega)]

/-- Witness for C8 at the two-digit numeral "ff" in all three prefix forms. -/
theorem claim_C8_amended_witness :
    unsignedVal (ofHexString ['f', 'f']) = 255 ∧
    unsignedVal (ofHexString (['0', 'x'] ++ ['f', 'f'])) = 255 ∧
    unsignedVal (ofHexString (['0', 'X'] ++ ['f', 'f'])) = 255 := by
  have h := claim_C8_amended ['f', 'f'] (by decide) (by decide) (by decide)
  refine ⟨?_, ?_, ?_⟩
  · rw [h.1]
    decide
  · rw [h.2.1]
    decide
  · rw [h.2.2.1]
    decide

/-! ## Decimal strings -/

/-- JS `String(n)` / `Number.prototype.toString()` for an exactly-represented
value (`Nat.toDigits 10` matches: no leading zeros, "0" for zero); infinities
render as "Infinity" / "-Infinity"; a finite negative value gets a '-' sign. -/
def jsNumToChars : JsNum → List Char
  | JsNum.finite v =>
      if v < 0 then '-' :: Nat.toDigits 10 v.natAbs else Nat.toDigits 10 v.toNat
  | JsNum.posInf => ['I', 'n', 'f', 'i', 'n', 'i', 't', 'y']
  | JsNum.negInf => '-' :: ['I', 'n', 'f', 'i', 'n', 'i', 't', 'y']

/-- Source `toString(10)`: decimal rendering of `valueOf()`. -/
def toStringD (t : Int64) : List Char := jsNumToChars (valueOf t)

/-- Scratch-buffer two's complement used by the negative branch of
`toDecimalString`
(`incremented = false; for (i = 7; i >= 0; --i) { buffer[i] = (~b[o+i] + (incremented ? 0 : 1)) & 0xff; incremented = incremented || !!b[o+i] }`)
as a chain over the bytes taken least-significant first. -/
def decCompChain : List Nat → Bool → List Nat
  | [], _ => []
  | d :: rest, incremented =>
    andFF (jsNot (d : Int) + (if incremented then 0 else 1)) ::
      decCompChain rest (incremented || decide (d ≠ 0))

/-- The scratch magnitude buffer built from the 8 logical bytes (given
most-significant first, as read). -/
def twosCompDec (msb : List Nat) : List Nat := (decCompChain msb.reverse false).reverse

/-- Limb-splitting rendering of `toDecimalString` (the else-branch): split the
magnitude held in bytes c0..c7 into the low 11 decimal digits and the rest,
using 2^48 mod 10^11 = 74976710656 and 2^48 / 10^11 = 2814.  All intermediate
JS doubles stay below 2^53, so Nat arithmetic is faithful. -/
def renderLimbs (negative : Bool) (c0 c1 c2 c3 c4 c5 c6 c7 : Nat) : List Char :=
  let high2 := c1 + (c0 <<< 8)
  let low := c7 + (c6 <<< 8) + (c5 <<< 16) + c4 * 16777216 +
    (c3 + (c2 <<< 8)) * 4294967296 + high2 * 74976710656
  let high := low / 100000000000 + high2 * 2814
  let pad := ['0', '0', '0', '0', '0', '0', '0', '0', '0', '0', '0'] ++
    Nat.toDigits 10 (low % 100000000000)
  let lowStr := pad.drop (pad.length - 11)
  (if negative then ['-'] else []) ++ Nat.toDigits 10 high ++ lowStr

/-- Source `toDecimalString`.  Buffer reads are tracked with `List.get?`: an
out-of-bounds read (JS `undefined`, which poisons the arithmetic as NaN) makes
the result `none`.  In the negative branch the source replaces `b` by the
8-byte scratch buffer but keeps indexing it with the original offset `o`. -/
def toDecimalString (t : Int64) : Option (List Char) := do
  let b := t.buffer
  let o := t.offset
  let b0 ← b.get? o
  let b1 ← b.get? (o + 1)
  let b2 ← b.get? (o + 2)
  let b3 ← b.get? (o + 3)
  let b4 ← b.get? (o + 4)
  let b5 ← b.get? (o + 5)
  let b6 ← b.get? (o + 6)
  let b7 ← b.get? (o + 7)
  if (b0 = 0 ∧ b1 &&& 224 = 0) ∨
      (jsNot (b0 : Int) = 0 ∧ jsNot ((b1 &&& 224 : Nat) : Int) = 0) then
    pure (toStringD t)
  else
    if b0 &&& 128 ≠ 0 then
      let scratch := twosCompDec [b0, b1, b2, b3, b4, b5, b6, b7]
      let c0 ← scratch.get? o
      let c1 ← scratch.get? (o + 1)
      let c2 ← scratch.get? (o + 2)
      let c3 ← scratch.get? (o + 3)
      let c4 ← scratch.get? (o + 4)
      let c5 ← scratch.get? (o + 5)
      let c6 ← scratch.get? (o + 6)
      let c7 ← scratch.get? (o + 7)
      pure (renderLimbs true c0 c1 c2 c3 c4 c5 c6 c7)
    else
      pure (renderLimbs false b0 b1 b2 b3 b4 b5 b6 b7)

/-- Value of a decimal digit character. -/
def digitVal (c : Char) : Nat := c.toNat - 48

/-- Value of a decimal digit string. -/
def digitsVal (l : List Char) : Nat :=
  l.foldl (fun a c => a * 10 + digitVal c) 0

/-- JS unary `+text` on a decimal numeral with optional '-' sign (the only
strings the modelled call sites pass). -/
def decVal (t : List Char) : Int :=
  if t.head? = some '-' then -(digitsVal (t.drop 1) : Int) else (digitsVal t : Int)

/-- Source static `fromDecimalString(text)`. -/
def fromDecimalString (t : List Char) : Option Int64 :=
  if t.length < (if t.head? = some '-' then 17 else 16) then
    ofNumber (decVal t)
  else if t.length > (if t.head? = some '-' then 20 else 19) then
    none
  else
    let high5 := digitsVal ((t.take (t.length - 15)).drop (if t.head? = some '-' then 1 else 0))
    let low0 := digitsVal (t.drop (t.length - 15)) + high5 * 2764472320
    let high0 := low0 / 4294967296 + high5 * 232830
    let low1 := low0 % 4294967296
    if 2147483648 ≤ high0 ∧ ¬(t.head? = some '-' ∧ high0 = 2147483648 ∧ low1 = 0) then
      none
    else if t.head? = some '-' then
      let highA := jsNot (high0 : Int)
      let highB := if low1 = 0 then jsAnd (highA + 1) 4294967295 else highA
      let lowB : Int := if low1 = 0 then (low1 : Int) else jsNot (low1 : Int) + 1
      some (ofHiLo (jsOr 2147483648 highB) lowB)
    else
      some (ofHiLo (high0 : Int) (low1 : Int))

/-- Decimal digit characters only. -/
def DecDigits (l : List Char) : Prop := ∀ c ∈ l, 48 ≤ c.toNat ∧ c.toNat ≤ 57

/-- Well-formed decimal numerals: digits, optionally preceded by '-'. -/
def DecWf (t : List Char) : Prop :=
  (t ≠ [] ∧ DecDigits t) ∨ (∃ d, t = '-' :: d ∧ d ≠ [] ∧ DecDigits d)

theorem digitsVal_acc (ys : List Char) (a : Nat) :
    ys.foldl (fun a c => a * 10 + digitVal c) a = a * 10 ^ ys.length + digitsVal ys := by
  induction ys generalizing a with
  | nil => simp [digitsVal]
  | cons c ys ih =>
    simp only [List.foldl_cons, List.length_cons]
    rw [ih (a * 10 + digitVal c),
      show digitsVal (c :: ys) = (0 * 10 + digitVal c) * 10 ^ ys.length + digitsVal ys from
        ih _]
    ring

theorem digitsVal_append (xs ys : List Char) :
    digitsVal (xs ++ ys) = digitsVal xs * 10 ^ ys.length + digitsVal ys := by
  unfold digitsVal
  rw [List.foldl_append]
  exact digitsVal_acc ys _

theorem digitsVal_lt {l : List Char} (h : DecDigits l) : digitsVal l < 10 ^ l.length := by
  induction l with
  | nil => simp [digitsVal]
  | cons c ys ih =>
    have hc := h c (by simp)
    have hys : DecDigits ys := fun x hx => h x (by simp [hx])
    have h1 : digitsVal (c :: ys) = digitVal c * 10 ^ ys.length + digitsVal ys := by
      rw [show digitsVal (c :: ys) =
        (0 * 10 + digitVal c) * 10 ^ ys.length + digitsVal ys from digitsVal_acc ys _]
      ring
    rw [h1]
    have hd : digitVal c < 10 := by
      unfold digitVal
      omega
    have hr := ih hys
    simp only [List.length_cons, pow_succ]
    nlinarith [pow_pos (show 0 < (10 : Nat) by norm_num) ys.length]

theorem digits_head_ne {t : List Char} (hne : t ≠ []) (hdig : DecDigits t) :
    ¬ t.head? = some '-' := by
  cases t with
  | nil => simp at hne
  | cons c r =>
    simp only [List.head?_cons, Option.some.injEq]
    intro hc
    have hd := hdig c (by simp)
    rw [hc] at hd
    have he : ('-').toNat = 45 := rfl
    omega

theorem limb_words (H L : Nat) :
    (H * 1000000000000000 + L) / 4294967296 =
      (L + H * 2764472320) / 4294967296 + H * 232830 ∧
    (H * 1000000000000000 + L) % 4294967296 = (L + H * 2764472320) % 4294967296 := by
  constructor <;> omega

theorem decimal_split {t : List Char} (h15 : 15 ≤ t.length) (hdig : DecDigits t) :
    digitsVal (t.take (t.length - 15)) * 1000000000000000 +
      digitsVal (t.drop (t.length - 15)) = digitsVal t := by
  have hap := digitsVal_append (t.take (t.length - 15)) (t.drop (t.length - 15))
  rw [List.take_append_drop] at hap
  have hlen15 : (t.drop (t.length - 15)).length = 15 := by
    rw [List.length_drop]
    omega
  rw [hlen15] at hap
  norm_num at hap
  omega

theorem fromDecimal_none_pos {t : List Char} (hne : t ≠ []) (hdig : DecDigits t) :
    (fromDecimalString t = none ↔
      t.length > (if t.head? = some '-' then 20 else 19) ∨
        (2147483648 ≤ (decVal t).natAbs / 4294967296 ∧
          ¬(t.head? = some '-' ∧ (decVal t).natAbs / 4294967296 = 2147483648 ∧
            (decVal t).natAbs % 4294967296 = 0))) := by
  have hnn := digits_head_ne hne hdig
  have hdecVal : decVal t = (digitsVal t : Int) := by
    unfold decVal
    rw [if_neg hnn]
  have hdv : (decVal t).natAbs = digitsVal t := by
    rw [hdecVal]
    simp
  rw [hdv]
  simp only [fromDecimalString, hdecVal, eq_false hnn, if_false, false_and,
    not_false_eq_true, and_true, List.drop_zero]
  by_cases hshort : t.length < 16
  · rw [if_pos hshort]
    have hVlt : digitsVal t < 10 ^ 15 :=
      lt_of_lt_of_le (digitsVal_lt hdig)
        (Nat.pow_le_pow_right (by norm_num) (by omega))
    apply iff_of_false
    · intro hc
      rw [ofNumber_none_iff] at hc
      simp only [Int.natAbs_ofNat] at hc
      omega
    · rintro (hc | hc)
      · omega
      · omega
  · rw [if_neg hshort]
    by_cases hlong : t.length > 19
    · rw [if_pos hlong]
      exact iff_of_true rfl (Or.inl hlong)
    · rw [if_neg hlong]
      have hw := limb_words (digitsVal (t.take (t.length - 15)))
        (digitsVal (t.drop (t.length - 15)))
      rw [decimal_split (by omega) hdig] at hw
      by_cases hge : 2147483648 ≤
          (digitsVal (t.drop (t.length - 15)) +
            digitsVal (t.take (t.length - 15)) * 2764472320) / 4294967296 +
            digitsVal (t.take (t.length - 15)) * 232830
      · rw [if_pos hge]
        exact iff_of_true rfl (Or.inr (by omega))
      · rw [if_neg hge]
        apply iff_of_false
        · simp
        · rintro (hc | hc)
          · omega
          · omega

theorem fromDecimal_none_neg {d : List Char} (hne : d ≠ []) (hdig : DecDigits d) :
    (fromDecimalString ('-' :: d) = none ↔
      ('-' :: d).length > (if ('-' :: d).head? = some '-' then 20 else 19) ∨
        (2147483648 ≤ (decVal ('-' :: d)).natAbs / 4294967296 ∧
          ¬(('-' :: d).head? = some '-' ∧
            (decVal ('-' :: d)).natAbs / 4294967296 = 2147483648 ∧
            (decVal ('-' :: d)).natAbs % 4294967296 = 0))) := by
  have hdv : (decVal ('-' :: d)).natAbs = digitsVal d := by
    unfold decVal
    rw [if_pos (show ('-' :: d : List Char).head? = some '-' from rfl)]
    simp
  rw [hdv]
  have hyes : (('-' :: d : List Char).head? = some '-') := rfl
  simp only [fromDecimalString, eq_true hyes, if_true, true_and, List.length_cons]
  by_cases hshort : d.length + 1 < 17
  · rw [if_pos hshort]
    have hVlt : digitsVal d < 10 ^ 15 :=
      lt_of_lt_of_le (digitsVal_lt hdig)
        (Nat.pow_le_pow_right (by norm_num) (by omega))
    apply iff_of_false
    · intro hc
      rw [ofNumber_none_iff] at hc
      have hna : (decVal ('-' :: d)).natAbs = digitsVal d := hdv
      rw [hna] at hc
      omega
    · rintro (hc | ⟨hc1, -⟩)
      · omega
      · omega
  · rw [if_neg hshort]
    by_cases hlong : d.length + 1 > 20
    · rw [if_pos hlong]
      exact iff_of_true rfl (Or.inl hlong)
    · rw [if_neg hlong]
      have e15 : d.length + 1 - 15 = (d.length - 15) + 1 := by omega
      simp only [e15, List.take_succ_cons, List.drop_succ_cons, List.drop_one,
        List.tail_cons]
      have hw := limb_words (digitsVal (d.take (d.length - 15)))
        (digitsVal (d.drop (d.length - 15)))
      rw [decimal_split (by omega) hdig] at hw
      by_cases hge : 2147483648 ≤
          (digitsVal (d.drop (d.length - 15)) +
            digitsVal (d.take (d.length - 15)) * 2764472320) / 4294967296 +
            digitsVal (d.take (d.length - 15)) * 232830
      · by_cases hmin :
            (digitsVal (d.drop (d.length - 15)) +
              digitsVal (d.take (d.length - 15)) * 2764472320) / 4294967296 +
              digitsVal (d.take (d.length - 15)) * 232830 = 2147483648 ∧
            (digitsVal (d.drop (d.length - 15)) +
              digitsVal (d.take (d.length - 15)) * 2764472320) % 4294967296 = 0
        · rw [if_neg (fun hc => hc.2 hmin)]
          apply iff_of_false
          · simp
          · rintro (hc | ⟨-, hc2⟩)
            · omega
            · exact hc2 ⟨by omega, by omega⟩
        · rw [if_pos ⟨hge, fun hc => hmin hc⟩]
          refine iff_of_true rfl (Or.inr ⟨by omega, ?_⟩)
          rintro ⟨h1, h2⟩
          exact hmin ⟨by omega, by omega⟩
      · rw [if_neg (fun hc => hge hc.1)]
        apply iff_of_false
        · simp
        · rintro (hc | ⟨hc1, -⟩)
          · omega
          · omega

/-- C9: fromDecimalString throws a RangeError exactly when the text has more
than 20 characters (19 without a sign) or its decoded magnitude reaches 2^31
in the high 32-bit word, except that the exact minimum value (negative,
high = 2^31, low = 0) is accepted. -/
theorem claim_C9_fromDecimal_rangeError (t : List Char) (hwf : DecWf t) :
    fromDecimalString t = none ↔
      t.length > (if t.head? = some '-' then 20 else 19) ∨
        (2147483648 ≤ (decVal t).natAbs / 4294967296 ∧
          ¬(t.head? = some '-' ∧ (decVal t).natAbs / 4294967296 = 2147483648 ∧
            (decVal t).natAbs % 4294967296 = 0)) := by
  rcases hwf with ⟨hne, hdig⟩ | ⟨d, rfl, hne, hdig⟩
  · exact fromDecimal_none_pos hne hdig
  · exact fromDecimal_none_neg hne hdig

/-- Witness for C9, covering the claim's scenario: a 21-character numeral
fails with a range error while the 20-character numeral
"-1234567890123456789" succeeds. -/
theorem claim_C9_witness :
    fromDecimalString "100000000000000000000".toList = none ∧
    fromDecimalString ('-' :: "1234567890123456789".toList) ≠ none := by
  constructor
  · rw [claim_C9_fromDecimal_rangeError _
      (Or.inl ⟨by decide, by unfold DecDigits; decide⟩)]
    decide
  · intro hc
    rw [claim_C9_fromDecimal_rangeError _
      (Or.inr ⟨"1234567890123456789".toList, rfl, by decide,
        by unfold DecDigits; decide⟩)] at hc
    revert hc
    decide

/-- C1 failing input: the decimal round trip fails at the canonical string
"-1".  fromDecimalString("-1") stores -1 correctly, but toDecimalString never
delegates small negative magnitudes to toString (the all-ones fast-path test
`!~b[o]` can never be true), so the limb branch zero-pads: the result is
"-000000000001", not "-1". -/
theorem claim_C1_decimal_roundTrip_failure :
    (fromDecimalString ['-', '1']).bind toDecimalString =
      some ['-', '0', '0', '0', '0', '0', '0', '0', '0', '0', '0', '0', '1'] ∧
    (['-', '0', '0', '0', '0', '0', '0', '0', '0', '0', '0', '0', '1'] : List Char) ≠
      ['-', '1'] := by
  constructor
  · have h1 : fromDecimalString ['-', '1'] = ofNumber (decVal ['-', '1']) := rfl
    have h2 : decVal ['-', '1'] = -1 := by decide
    rw [h1, h2, ofNumber_eq]
    decide
  · decide

/-- C2 failing input: for the value -1 (all 8 bytes 0xff, top 11 bits all 1)
toDecimalString does not delegate to toString(): the second disjunct of the
fast-path test, `!~b[o] && !~(b[o+1] & 0xe0)`, is vacuous in JS because the
32-bit complement of a byte is never 0, so the limb branch runs and yields
"-000000000001" while toString() yields "-1". -/
theorem claim_C2_allOnes_no_delegation :
    toDecimalString ⟨[255, 255, 255, 255, 255, 255, 255, 255], 0⟩ =
      some ['-', '0', '0', '0', '0', '0', '0', '0', '0', '0', '0', '0', '1'] ∧
    toStringD ⟨[255, 255, 255, 255, 255, 255, 255, 255], 0⟩ = ['-', '1'] := by
  constructor
  · decide
  · decide

/-- C10 failing input: a negative large-magnitude value aliased at offset 2.
The negative branch of toDecimalString builds an 8-byte scratch magnitude
buffer but keeps reading it at the original offset, so indices 8 and 9 of the
8-byte scratch are read out of bounds (modelled as `none`; JS reads undefined
and produces NaN-contaminated output).  The identical 8 bytes at offset 0
render correctly. -/
theorem claim_C10_offset_scratch_bug :
    toDecimalString ⟨[0, 0, 255, 250, 255, 255, 255, 255, 247, 0, 0, 0, 0, 0, 0, 0], 2⟩ =
      none ∧
    toDecimalString ⟨[255, 250, 255, 255, 255, 255, 247, 0], 0⟩ =
      some ['-', '1', '4', '0', '7', '3', '7', '4', '8', '8', '3', '5', '5', '5', '5',
        '8', '4'] := by
  constructor
  · decide
  · decide

end Int64
